import Mathlib

/-!
Shallow embedding of `src/PY/dasa_insumos_ds.py`: the record type `Insumo`,
the FIFO queue `FilaConsumo`, the LIFO stack `PilhaConsultas`, the searches
`busca_sequencial` and `busca_binaria`, and the sorts `merge_sort` (with its
helper `_merge`) and `quick_sort`.

Modelling conventions:
* Python `datetime` timestamps are abstracted as natural numbers; the impure
  `datetime.now()` calls become an explicit timestamp argument.
* Python `int` is `Int`; `Optional[T]` is `Option T`.
* Python list indexing (which supports negative indices and raises
  `IndexError` when out of range) is modelled by `pyGet`, returning
  `Except Unit` where `.error ()` stands for `IndexError`.
* The `while` loop of `busca_binaria` is modelled by the tail-recursive
  `bbLoop` on the integer bounds `lo`, `hi`; the measure `(hi + 1 - lo).toNat`
  is the strictly shrinking interval size.
* `random.choice(itens)` in `quick_sort` is modelled by an explicit stream of
  random numbers `rs : List Nat`, each draw selecting index `r % len`;
  the remaining stream is threaded through the recursive calls in Python's
  evaluation order (pivot draw, then left recursion, then right recursion).
* The sorts are generic over the element type and a linearly ordered key
  type, exactly as the Python code is generic over `key`.
-/

open List

structure Insumo where
  insumo : String
  quantidade : Int
  exame : String
  validade : Option Nat := none
deriving DecidableEq

structure FilaConsumo where
  q : List (Nat × Insumo)
deriving DecidableEq

def FilaConsumo.empty : FilaConsumo := ⟨[]⟩

def FilaConsumo.registrar_consumo (f : FilaConsumo) (t : Nat) (item : Insumo) : FilaConsumo :=
  ⟨f.q ++ [(t, item)]⟩

def FilaConsumo.proximo (f : FilaConsumo) : Option (Nat × Insumo) × FilaConsumo :=
  match f.q with
  | [] => (none, f)
  | x :: rest => (some x, ⟨rest⟩)

structure PilhaConsultas where
  stack : List (Nat × Insumo)
deriving DecidableEq

def PilhaConsultas.empty : PilhaConsultas := ⟨[]⟩

def PilhaConsultas.consultar (p : PilhaConsultas) (t : Nat) (item : Insumo) : PilhaConsultas :=
  ⟨p.stack ++ [(t, item)]⟩

def PilhaConsultas.ultimo (p : PilhaConsultas) : Option (Nat × Insumo) × PilhaConsultas :=
  match p.stack.getLast? with
  | none => (none, p)
  | some x => (some x, ⟨p.stack.dropLast⟩)

/-- Registering a whole list of timestamped records, in order, on a queue. -/
def registerAllFila (f : FilaConsumo) (xs : List (Nat × Insumo)) : FilaConsumo :=
  xs.foldl (fun g e => g.registrar_consumo e.1 e.2) f

/-- Pushing a whole list of timestamped records, in order, on a stack. -/
def pushAllPilha (p : PilhaConsultas) (xs : List (Nat × Insumo)) : PilhaConsultas :=
  xs.foldl (fun g e => g.consultar e.1 e.2) p

/-- Fuel-indexed repeated `proximo`: collects the dequeued entries in order. -/
def drainFilaFuel : Nat → FilaConsumo → List (Nat × Insumo)
  | 0, _ => []
  | n + 1, f =>
    match f.proximo with
    | (none, _) => []
    | (some y, g) => y :: drainFilaFuel n g

/-- Repeated `proximo` until the queue reports absent. -/
def drainFila (f : FilaConsumo) : List (Nat × Insumo) :=
  drainFilaFuel f.q.length f

/-- Fuel-indexed repeated `ultimo`: collects the popped entries in order. -/
def drainPilhaFuel : Nat → PilhaConsultas → List (Nat × Insumo)
  | 0, _ => []
  | n + 1, p =>
    match p.ultimo with
    | (none, _) => []
    | (some y, g) => y :: drainPilhaFuel n g

/-- Repeated `ultimo` until the stack reports absent. -/
def drainPilha (p : PilhaConsultas) : List (Nat × Insumo) :=
  drainPilhaFuel p.stack.length p

/-- Python's `str.lower()`, modelled as a per-character lowercase map (the
names in this repository only ever use ASCII upper-case letters). -/
def pyLower (s : String) : String := ⟨s.data.map Char.toLower⟩

def busca_sequencial (insumos : List Insumo) (nome : String) : Option Insumo :=
  match insumos with
  | [] => none
  | item :: rest =>
    if pyLower item.insumo = pyLower nome then some item
    else busca_sequencial rest nome

/-- Python list indexing: nonnegative indices from the front, negative indices
from the back, `IndexError` (modelled as `.error ()`) outside the range. -/
def pyIndex (n : Nat) (i : Int) : Int :=
  if 0 ≤ i then i else (n : Int) + i

def pyGet (xs : List Insumo) (i : Int) : Except Unit Insumo :=
  if h : 0 ≤ pyIndex xs.length i ∧ pyIndex xs.length i < (xs.length : Int) then
    .ok (xs.get ⟨(pyIndex xs.length i).toNat, by omega⟩)
  else .error ()

/-- The `while lo <= hi` loop of `busca_binaria`. -/
def bbLoop (xs : List Insumo) (nome : String) (lo hi : Int) : Except Unit (Option Insumo) :=
  if h : lo ≤ hi then
    match pyGet xs ((lo + hi) / 2) with
    | .error e => .error e
    | .ok item =>
      if pyLower item.insumo = nome then .ok (some item)
      else if pyLower item.insumo < nome then bbLoop xs nome ((lo + hi) / 2 + 1) hi
      else bbLoop xs nome lo ((lo + hi) / 2 - 1)
  else .ok none
termination_by (hi + 1 - lo).toNat
decreasing_by
  · omega
  · omega

def busca_binaria (insumos_ordenados : List Insumo) (nome : String) :
    Except Unit (Option Insumo) :=
  bbLoop insumos_ordenados (pyLower nome) 0 ((insumos_ordenados.length : Int) - 1)

def _merge {α K : Type} [LinearOrder K] (a b : List α) (key : α → K) : List α :=
  match a, b with
  | [], bb => bb
  | x :: xs, [] => x :: xs
  | x :: xs, y :: ys =>
    if key x ≤ key y then x :: _merge xs (y :: ys) key
    else y :: _merge (x :: xs) ys key
termination_by a.length + b.length

def merge_sort {α K : Type} [LinearOrder K] (itens : List α) (key : α → K) : List α :=
  if itens.length ≤ 1 then itens
  else
    _merge (merge_sort (itens.take (itens.length / 2)) key)
           (merge_sort (itens.drop (itens.length / 2)) key) key
termination_by itens.length
decreasing_by
  · simp only [List.length_take]; omega
  · simp only [List.length_drop]; omega

/-- The pivot key drawn by `random.choice`: the random number `rs.headI`
selects an index uniformly reachable over the whole list. -/
def qsPivot {α K : Type} [LinearOrder K] (itens : List α) (key : α → K) (rs : List Nat)
    (h : 0 < itens.length) : K :=
  key (itens.get ⟨rs.headI % itens.length, Nat.mod_lt _ h⟩)

def quick_sort {α K : Type} [LinearOrder K] (itens : List α) (key : α → K)
    (rs : List Nat) : List α × List Nat :=
  if h : itens.length ≤ 1 then (itens, rs)
  else
    let pivot : K := qsPivot itens key rs (by omega)
    let menores := itens.filter (fun x => decide (key x < pivot))
    let iguais := itens.filter (fun x => decide (key x = pivot))
    let maiores := itens.filter (fun x => decide (pivot < key x))
    let rec1 := quick_sort menores key rs.tail
    let rec2 := quick_sort maiores key rec1.2
    (rec1.1 ++ iguais ++ rec2.1, rec2.2)
termination_by itens.length
decreasing_by
  · by_contra hge
    have hsub := List.filter_sublist (p := fun x => decide (key x < pivot)) itens
    have heq := hsub.eq_of_length (Nat.le_antisymm hsub.length_le (Nat.le_of_not_lt hge))
    have hmem := List.get_mem itens (rs.headI % itens.length) (Nat.mod_lt _ (by omega))
    have h2 : itens.get ⟨rs.headI % itens.length, Nat.mod_lt _ (by omega)⟩ ∈
        List.filter (fun x => decide (key x < pivot)) itens := by
      rw [heq]; exact hmem
    have h3 : key (itens.get ⟨rs.headI % itens.length, Nat.mod_lt _ (by omega)⟩) < pivot := by
      simpa using (List.mem_filter.mp h2).2
    exact lt_irrefl pivot h3
  · by_contra hge
    have hsub := List.filter_sublist (p := fun x => decide (pivot < key x)) itens
    have heq := hsub.eq_of_length (Nat.le_antisymm hsub.length_le (Nat.le_of_not_lt hge))
    have hmem := List.get_mem itens (rs.headI % itens.length) (Nat.mod_lt _ (by omega))
    have h2 : itens.get ⟨rs.headI % itens.length, Nat.mod_lt _ (by omega)⟩ ∈
        List.filter (fun x => decide (pivot < key x)) itens := by
      rw [heq]; exact hmem
    have h3 : pivot < key (itens.get ⟨rs.headI % itens.length, Nat.mod_lt _ (by omega)⟩) := by
      simpa using (List.mem_filter.mp h2).2
    exact lt_irrefl pivot h3

section MergeLemmas

variable {α K : Type} [LinearOrder K]

theorem merge_eq_nil_left (key : α → K) (b : List α) : _merge [] b key = b := by
  rw [_merge]

theorem merge_eq_nil_right (key : α → K) (x : α) (xs : List α) :
    _merge (x :: xs) [] key = x :: xs := by
  rw [_merge]

theorem merge_eq_cons_cons (key : α → K) (x y : α) (xs ys : List α) :
    _merge (x :: xs) (y :: ys) key =
      if key x ≤ key y then x :: _merge xs (y :: ys) key
      else y :: _merge (x :: xs) ys key := by
  rw [_merge]

theorem merge_perm (key : α → K) : ∀ (a b : List α), _merge a b key ~ a ++ b
  | [], b => by rw [merge_eq_nil_left]; simp
  | x :: xs, [] => by rw [merge_eq_nil_right]; simp
  | x :: xs, y :: ys => by
    rw [merge_eq_cons_cons]
    by_cases hxy : key x ≤ key y
    · rw [if_pos hxy]
      exact (merge_perm key xs (y :: ys)).cons x
    · rw [if_neg hxy]
      exact ((merge_perm key (x :: xs) ys).cons y).trans List.perm_middle.symm
termination_by a b => a.length + b.length

theorem mem_merge {key : α → K} {z : α} {a b : List α} :
    z ∈ _merge a b key ↔ z ∈ a ∨ z ∈ b := by
  rw [(merge_perm key a b).mem_iff]; simp

theorem merge_sorted (key : α → K) : ∀ (a b : List α),
    a.Sorted (fun x y => key x ≤ key y) → b.Sorted (fun x y => key x ≤ key y) →
    (_merge a b key).Sorted (fun x y => key x ≤ key y)
  | [], b, _, hb => by rwa [merge_eq_nil_left]
  | x :: xs, [], ha, _ => by rwa [merge_eq_nil_right]
  | x :: xs, y :: ys, ha, hb => by
    rcases List.sorted_cons.mp ha with ⟨hax, haxs⟩
    rcases List.sorted_cons.mp hb with ⟨hby, hbys⟩
    rw [merge_eq_cons_cons]
    by_cases hxy : key x ≤ key y
    · rw [if_pos hxy]
      refine List.sorted_cons.mpr ⟨?_, merge_sorted key xs (y :: ys) haxs hb⟩
      intro z hz
      rcases mem_merge.mp hz with hz | hz
      · exact hax z hz
      · rcases List.mem_cons.mp hz with rfl | hz
        · exact hxy
        · exact le_trans hxy (hby z hz)
    · rw [if_neg hxy]
      have hyx : key y ≤ key x := le_of_not_le hxy
      refine List.sorted_cons.mpr ⟨?_, merge_sorted key (x :: xs) ys ha hbys⟩
      intro z hz
      rcases mem_merge.mp hz with hz | hz
      · rcases List.mem_cons.mp hz with rfl | hz
        · exact hyx
        · exact le_trans hyx (hax z hz)
      · exact hby z hz
termination_by a b => a.length + b.length

theorem merge_filter (key : α → K) (v : K) : ∀ (a b : List α),
    a.Sorted (fun x y => key x ≤ key y) →
    (_merge a b key).filter (fun x => decide (key x = v)) =
      a.filter (fun x => decide (key x = v)) ++ b.filter (fun x => decide (key x = v))
  | [], b, _ => by rw [merge_eq_nil_left]; simp
  | x :: xs, [], _ => by rw [merge_eq_nil_right]; simp
  | x :: xs, y :: ys, ha => by
    rcases List.sorted_cons.mp ha with ⟨hax, haxs⟩
    rw [merge_eq_cons_cons]
    by_cases hxy : key x ≤ key y
    · rw [if_pos hxy]
      rw [List.filter_cons, List.filter_cons,
        merge_filter key v xs (y :: ys) haxs]
      by_cases hpx : key x = v
      · simp [hpx]
      · simp [hpx]
    · rw [if_neg hxy]
      have hyx : key y < key x := lt_of_not_le hxy
      rw [List.filter_cons, merge_filter key v (x :: xs) ys ha]
      by_cases hpy : key y = v
      · have hvx : v < key x := hpy ▸ hyx
        have hxv : ¬ key x = v := fun hc => absurd hc.symm (ne_of_lt hvx)
        have hxsnil : xs.filter (fun z => decide (key z = v)) = [] := by
          rw [List.filter_eq_nil_iff]
          intro z hz
          have hvz : v < key z := lt_of_lt_of_le hvx (hax z hz)
          simp
          exact fun hc => absurd hc.symm (ne_of_lt hvz)
        rw [List.filter_cons]
        simp [hpy, hxv, hxsnil]
      · rw [List.filter_cons]
        simp [hpy]
termination_by a b => a.length + b.length

end MergeLemmas

section MergeSortLemmas

variable {α K : Type} [LinearOrder K]

theorem merge_sort_base (key : α → K) (itens : List α) (h : itens.length ≤ 1) :
    merge_sort itens key = itens := by
  rw [merge_sort, if_pos h]

theorem merge_sort_rec (key : α → K) (itens : List α) (h : ¬ itens.length ≤ 1) :
    merge_sort itens key =
      _merge (merge_sort (itens.take (itens.length / 2)) key)
             (merge_sort (itens.drop (itens.length / 2)) key) key := by
  conv_lhs => rw [merge_sort]
  rw [if_neg h]

theorem merge_sort_perm (key : α → K) (itens : List α) : merge_sort itens key ~ itens := by
  by_cases h : itens.length ≤ 1
  · rw [merge_sort_base key itens h]
  · rw [merge_sort_rec key itens h]
    have h1 := merge_sort_perm key (itens.take (itens.length / 2))
    have h2 := merge_sort_perm key (itens.drop (itens.length / 2))
    have h3 := merge_perm key (merge_sort (itens.take (itens.length / 2)) key)
      (merge_sort (itens.drop (itens.length / 2)) key)
    calc _merge (merge_sort (itens.take (itens.length / 2)) key)
           (merge_sort (itens.drop (itens.length / 2)) key) key
        ~ merge_sort (itens.take (itens.length / 2)) key ++
            merge_sort (itens.drop (itens.length / 2)) key := h3
      _ ~ itens.take (itens.length / 2) ++ itens.drop (itens.length / 2) := h1.append h2
      _ = itens := List.take_append_drop _ itens
termination_by itens.length
decreasing_by
  · simp only [List.length_take]; omega
  · simp only [List.length_drop]; omega

theorem merge_sort_sorted (key : α → K) (itens : List α) :
    (merge_sort itens key).Sorted (fun x y => key x ≤ key y) := by
  by_cases h : itens.length ≤ 1
  · rw [merge_sort_base key itens h]
    match itens with
    | [] => exact List.sorted_nil
    | [x] => exact List.sorted_singleton x
  · rw [merge_sort_rec key itens h]
    exact merge_sorted key _ _
      (merge_sort_sorted key (itens.take (itens.length / 2)))
      (merge_sort_sorted key (itens.drop (itens.length / 2)))
termination_by itens.length
decreasing_by
  · simp only [List.length_take]; omega
  · simp only [List.length_drop]; omega

theorem merge_sort_filter (key : α → K) (v : K) (itens : List α) :
    (merge_sort itens key).filter (fun x => decide (key x = v)) =
      itens.filter (fun x => decide (key x = v)) := by
  by_cases h : itens.length ≤ 1
  · rw [merge_sort_base key itens h]
  · rw [merge_sort_rec key itens h,
      merge_filter key v _ _ (merge_sort_sorted key (itens.take (itens.length / 2))),
      merge_sort_filter key v (itens.take (itens.length / 2)),
      merge_sort_filter key v (itens.drop (itens.length / 2)),
      ← List.filter_append, List.take_append_drop]
termination_by itens.length
decreasing_by
  · simp only [List.length_take]; omega
  · simp only [List.length_drop]; omega

theorem sorted_filter_unique (key : α → K) :
    ∀ (l₁ l₂ : List α),
      l₁.Sorted (fun x y => key x ≤ key y) → l₂.Sorted (fun x y => key x ≤ key y) →
      (∀ v : K, l₁.filter (fun x => decide (key x = v)) =
        l₂.filter (fun x => decide (key x = v))) →
      l₁ = l₂
  | [], l₂, _, h₂, hf => by
    cases l₂ with
    | nil => rfl
    | cons y t₂ =>
      have := hf (key y)
      rw [List.filter_nil, List.filter_cons] at this
      simp at this
  | x :: t₁, l₂, h₁, h₂, hf => by
    cases l₂ with
    | nil =>
      have := hf (key x)
      rw [List.filter_nil, List.filter_cons] at this
      simp at this
    | cons y t₂ =>
      rcases List.sorted_cons.mp h₁ with ⟨hx1, ht₁⟩
      rcases List.sorted_cons.mp h₂ with ⟨hy2, ht₂⟩
      have hyx : key y ≤ key x := by
        have hmem : x ∈ (y :: t₂).filter (fun z => decide (key z = key x)) := by
          rw [← hf (key x)]
          simp [List.mem_filter]
        rcases List.mem_cons.mp (List.mem_filter.mp hmem).1 with heq | hmem2
        · exact le_of_eq (by rw [heq])
        · exact hy2 x hmem2
      have hxy : key x ≤ key y := by
        have hmem : y ∈ (x :: t₁).filter (fun z => decide (key z = key y)) := by
          rw [hf (key y)]
          simp [List.mem_filter]
        rcases List.mem_cons.mp (List.mem_filter.mp hmem).1 with heq | hmem2
        · exact le_of_eq (by rw [heq])
        · exact hx1 y hmem2
      have hkeq : key x = key y := le_antisymm hxy hyx
      have hfx := hf (key x)
      rw [List.filter_cons, List.filter_cons] at hfx
      simp only [decide_eq_true_eq, if_pos rfl, if_pos hkeq.symm] at hfx
      have hhead : x = y := (List.cons.injEq _ _ _ _ ▸ hfx).1
      have htail : t₁.filter (fun z => decide (key z = key x)) =
          t₂.filter (fun z => decide (key z = key x)) :=
        (List.cons.injEq _ _ _ _ ▸ hfx).2
      have htails : ∀ v : K, t₁.filter (fun z => decide (key z = v)) =
          t₂.filter (fun z => decide (key z = v)) := by
        intro v
        by_cases hv : v = key x
        · rw [hv]; exact htail
        · have hfv := hf v
          rw [List.filter_cons, List.filter_cons] at hfv
          have hxv : ¬ (key x = v) := fun hc => hv hc.symm
          have hyv : ¬ (key y = v) := fun hc => hv (hkeq.trans hc).symm
          simpa [hxv, hyv] using hfv
      rw [hhead, sorted_filter_unique key t₁ t₂ ht₁ ht₂ htails]

end MergeSortLemmas

section QuickSortLemmas

variable {α K : Type} [LinearOrder K]

theorem length_filter_lt {p : α → Bool} {l : List α} {a : α} (ha : a ∈ l)
    (hpa : ¬ p a = true) : (l.filter p).length < l.length := by
  have hsub := List.filter_sublist (p := p) l
  rcases Nat.lt_or_ge (l.filter p).length l.length with hlt | hge
  · exact hlt
  · exfalso
    have hmem : a ∈ l.filter p := by
      rw [hsub.eq_of_length (Nat.le_antisymm hsub.length_le hge)]
      exact ha
    exact hpa (List.mem_filter.mp hmem).2

theorem three_partition_perm (key : α → K) (pv : K) (l : List α) :
    l.filter (fun x => decide (key x < pv)) ++ l.filter (fun x => decide (key x = pv)) ++
      l.filter (fun x => decide (pv < key x)) ~ l := by
  induction l with
  | nil => simp
  | cons x t ih =>
    rcases lt_trichotomy (key x) pv with hx | hx | hx
    · rw [List.filter_cons, List.filter_cons, List.filter_cons,
        if_pos (by simpa using hx), if_neg (by simpa using ne_of_lt hx),
        if_neg (by simpa using asymm hx)]
      exact ih.cons x
    · rw [List.filter_cons, List.filter_cons, List.filter_cons,
        if_neg (by simp [hx]), if_pos (by simpa using hx), if_neg (by simp [hx])]
      have ih2 : t.filter (fun x => decide (key x < pv)) ++
          (t.filter (fun x => decide (key x = pv)) ++
            t.filter (fun x => decide (pv < key x))) ~ t := by
        rw [← List.append_assoc]; exact ih
      rw [List.append_assoc]
      exact List.perm_middle.trans (ih2.cons x)
    · rw [List.filter_cons, List.filter_cons, List.filter_cons,
        if_neg (by simpa using asymm hx), if_neg (by simpa using ne_of_gt hx),
        if_pos (by simpa using hx)]
      exact List.perm_middle.trans (ih.cons x)

theorem filter_three_partition (key : α → K) (pv v : K) (l : List α) :
    (l.filter (fun x => decide (key x < pv))).filter (fun x => decide (key x = v)) ++
      (l.filter (fun x => decide (key x = pv))).filter (fun x => decide (key x = v)) ++
      (l.filter (fun x => decide (pv < key x))).filter (fun x => decide (key x = v)) =
      l.filter (fun x => decide (key x = v)) := by
  rcases lt_trichotomy v pv with hv | hv | hv
  · have hB : (l.filter (fun x => decide (key x = pv))).filter
        (fun x => decide (key x = v)) = [] := by
      rw [List.filter_eq_nil_iff]
      intro a ha
      have hpv := (List.mem_filter.mp ha).2
      simp at hpv ⊢
      rw [hpv]
      exact fun hc => absurd hc.symm (ne_of_lt hv)
    have hC : (l.filter (fun x => decide (pv < key x))).filter
        (fun x => decide (key x = v)) = [] := by
      rw [List.filter_eq_nil_iff]
      intro a ha
      have hpv := (List.mem_filter.mp ha).2
      simp at hpv ⊢
      exact fun hc => absurd hc.symm (ne_of_lt (lt_trans hv hpv))
    have hA : (l.filter (fun x => decide (key x < pv))).filter
        (fun x => decide (key x = v)) = l.filter (fun x => decide (key x = v)) := by
      rw [List.filter_filter]
      refine List.filter_congr ?_
      intro a _
      by_cases hav : key a = v
      · simp [hav, hv]
      · simp [hav]
    rw [hA, hB, hC, List.append_nil, List.append_nil]
  · subst hv
    have hA : (l.filter (fun x => decide (key x < v))).filter
        (fun x => decide (key x = v)) = [] := by
      rw [List.filter_eq_nil_iff]
      intro a ha
      have hpv := (List.mem_filter.mp ha).2
      simp at hpv ⊢
      exact ne_of_lt hpv
    have hC : (l.filter (fun x => decide (v < key x))).filter
        (fun x => decide (key x = v)) = [] := by
      rw [List.filter_eq_nil_iff]
      intro a ha
      have hpv := (List.mem_filter.mp ha).2
      simp at hpv ⊢
      exact ne_of_gt hpv
    have hB : (l.filter (fun x => decide (key x = v))).filter
        (fun x => decide (key x = v)) = l.filter (fun x => decide (key x = v)) := by
      rw [List.filter_filter]
      refine List.filter_congr ?_
      intro a _
      by_cases hav : key a = v
      · simp [hav]
      · simp [hav]
    rw [hA, hB, hC, List.nil_append, List.append_nil]
  · have hA : (l.filter (fun x => decide (key x < pv))).filter
        (fun x => decide (key x = v)) = [] := by
      rw [List.filter_eq_nil_iff]
      intro a ha
      have hpv := (List.mem_filter.mp ha).2
      simp at hpv ⊢
      exact ne_of_lt (lt_trans hpv hv)
    have hB : (l.filter (fun x => decide (key x = pv))).filter
        (fun x => decide (key x = v)) = [] := by
      rw [List.filter_eq_nil_iff]
      intro a ha
      have hpv := (List.mem_filter.mp ha).2
      simp at hpv ⊢
      rw [hpv]
      exact fun hc => absurd hc (ne_of_lt hv)
    have hC : (l.filter (fun x => decide (pv < key x))).filter
        (fun x => decide (key x = v)) = l.filter (fun x => decide (key x = v)) := by
      rw [List.filter_filter]
      refine List.filter_congr ?_
      intro a _
      by_cases hav : key a = v
      · simp [hav, hv]
      · simp [hav]
    rw [hA, hB, hC, List.nil_append, List.nil_append]

theorem quick_sort_base (key : α → K) (itens : List α) (rs : List Nat)
    (h : itens.length ≤ 1) : quick_sort itens key rs = (itens, rs) := by
  rw [quick_sort, dif_pos h]

theorem quick_sort_rec (key : α → K) (itens : List α) (rs : List Nat)
    (h : ¬ itens.length ≤ 1) (hpos : 0 < itens.length) :
    quick_sort itens key rs =
      ((quick_sort (itens.filter (fun x => decide (key x < qsPivot itens key rs hpos)))
          key rs.tail).1
        ++ itens.filter (fun x => decide (key x = qsPivot itens key rs hpos))
        ++ (quick_sort (itens.filter (fun x => decide (qsPivot itens key rs hpos < key x))) key
             (quick_sort (itens.filter (fun x => decide (key x < qsPivot itens key rs hpos)))
               key rs.tail).2).1,
       (quick_sort (itens.filter (fun x => decide (qsPivot itens key rs hpos < key x))) key
             (quick_sort (itens.filter (fun x => decide (key x < qsPivot itens key rs hpos)))
               key rs.tail).2).2) := by
  conv_lhs => rw [quick_sort]
  rw [dif_neg h]

theorem quick_sort_perm (key : α → K) (itens : List α) (rs : List Nat) :
    (quick_sort itens key rs).1 ~ itens := by
  by_cases h : itens.length ≤ 1
  · rw [quick_sort_base key itens rs h]
  · have hpos : 0 < itens.length := by omega
    rw [quick_sort_rec key itens rs h hpos]
    refine Perm.trans ?_ (three_partition_perm key (qsPivot itens key rs hpos) itens)
    exact ((quick_sort_perm key _ rs.tail).append (Perm.refl _)).append
      (quick_sort_perm key _ _)
termination_by itens.length
decreasing_by
  · exact length_filter_lt (List.get_mem itens (rs.headI % itens.length) (Nat.mod_lt _ hpos)) (by simp [qsPivot])
  · exact length_filter_lt (List.get_mem itens (rs.headI % itens.length) (Nat.mod_lt _ hpos)) (by simp [qsPivot])

theorem quick_sort_sorted (key : α → K) (itens : List α) (rs : List Nat) :
    ((quick_sort itens key rs).1).Sorted (fun x y => key x ≤ key y) := by
  by_cases h : itens.length ≤ 1
  · rw [quick_sort_base key itens rs h]
    match itens with
    | [] => exact List.sorted_nil
    | [x] => exact List.sorted_singleton x
  · have hpos : 0 < itens.length := by omega
    rw [quick_sort_rec key itens rs h hpos]
    have hmemA : ∀ z ∈ (quick_sort
        (itens.filter (fun x => decide (key x < qsPivot itens key rs hpos))) key rs.tail).1,
        key z < qsPivot itens key rs hpos := by
      intro z hz
      have hz2 := (quick_sort_perm key _ rs.tail).mem_iff.mp hz
      simpa using (List.mem_filter.mp hz2).2
    have hmemB : ∀ z ∈ itens.filter (fun x => decide (key x = qsPivot itens key rs hpos)),
        key z = qsPivot itens key rs hpos := by
      intro z hz
      simpa using (List.mem_filter.mp hz).2
    have hmemC : ∀ z ∈ (quick_sort
        (itens.filter (fun x => decide (qsPivot itens key rs hpos < key x))) key
        (quick_sort (itens.filter (fun x => decide (key x < qsPivot itens key rs hpos)))
          key rs.tail).2).1,
        qsPivot itens key rs hpos < key z := by
      intro z hz
      have hz2 := (quick_sort_perm key _ _).mem_iff.mp hz
      simpa using (List.mem_filter.mp hz2).2
    have hBsorted : (itens.filter
        (fun x => decide (key x = qsPivot itens key rs hpos))).Sorted
        (fun x y => key x ≤ key y) := by
      refine List.pairwise_of_forall_mem_list ?_
      intro a ha b hb
      exact le_of_eq ((hmemB a ha).trans (hmemB b hb).symm)
    refine List.pairwise_append.mpr ⟨List.pairwise_append.mpr
      ⟨quick_sort_sorted key _ rs.tail, hBsorted, ?_⟩, quick_sort_sorted key _ _, ?_⟩
    · intro a ha b hb
      exact le_of_lt (lt_of_lt_of_eq (hmemA a ha) (hmemB b hb).symm)
    · intro a ha c hc
      rcases List.mem_append.mp ha with ha2 | ha2
      · exact le_of_lt (lt_trans (hmemA a ha2) (hmemC c hc))
      · exact le_of_lt (lt_of_eq_of_lt (hmemB a ha2) (hmemC c hc))
termination_by itens.length
decreasing_by
  · exact length_filter_lt (List.get_mem itens (rs.headI % itens.length) (Nat.mod_lt _ hpos)) (by simp [qsPivot])
  · exact length_filter_lt (List.get_mem itens (rs.headI % itens.length) (Nat.mod_lt _ hpos)) (by simp [qsPivot])

theorem quick_sort_filter (key : α → K) (v : K) (itens : List α) (rs : List Nat) :
    ((quick_sort itens key rs).1).filter (fun x => decide (key x = v)) =
      itens.filter (fun x => decide (key x = v)) := by
  by_cases h : itens.length ≤ 1
  · rw [quick_sort_base key itens rs h]
  · have hpos : 0 < itens.length := by omega
    rw [quick_sort_rec key itens rs h hpos, List.filter_append, List.filter_append,
      quick_sort_filter key v _ rs.tail, quick_sort_filter key v _ _]
    exact filter_three_partition key (qsPivot itens key rs hpos) v itens
termination_by itens.length
decreasing_by
  · exact length_filter_lt (List.get_mem itens (rs.headI % itens.length) (Nat.mod_lt _ hpos)) (by simp [qsPivot])
  · exact length_filter_lt (List.get_mem itens (rs.headI % itens.length) (Nat.mod_lt _ hpos)) (by simp [qsPivot])

end QuickSortLemmas

section BuscaLemmas

theorem pyGet_ok_mem {xs : List Insumo} {i : Int} {r : Insumo}
    (h : pyGet xs i = .ok r) : r ∈ xs := by
  unfold pyGet at h
  split at h
  · injection h with h2
    rw [← h2]
    exact List.get_mem xs _ _
  · cases h

theorem pyGet_in_range (xs : List Insumo) (i : Int) (h0 : 0 ≤ i)
    (hlen : i < (xs.length : Int)) :
    ∃ hh : i.toNat < xs.length, pyGet xs i = .ok (xs.get ⟨i.toNat, hh⟩) := by
  have hpi : pyIndex xs.length i = i := by rw [pyIndex, if_pos h0]
  refine ⟨by omega, ?_⟩
  rw [pyGet]
  rw [dif_pos (by rw [hpi]; exact ⟨h0, hlen⟩)]
  congr 1
  exact congrArg xs.get (Fin.ext (show (pyIndex xs.length i).toNat = i.toNat by omega))

theorem bbLoop_ok (xs : List Insumo) (t : String) :
    ∀ (lo hi : Int), 0 ≤ lo → hi < (xs.length : Int) →
      ∃ o : Option Insumo, bbLoop xs t lo hi = .ok o := by
  intro lo hi hlo hhi
  by_cases hcond : lo ≤ hi
  · obtain ⟨hh, hget⟩ := pyGet_in_range xs ((lo + hi) / 2) (by omega) (by omega)
    rw [bbLoop, dif_pos hcond]
    simp only [hget]
    by_cases heq : pyLower (xs.get ⟨((lo + hi) / 2).toNat, hh⟩).insumo = t
    · rw [if_pos heq]
      exact ⟨some _, rfl⟩
    · rw [if_neg heq]
      by_cases hlt : pyLower (xs.get ⟨((lo + hi) / 2).toNat, hh⟩).insumo < t
      · rw [if_pos hlt]
        exact bbLoop_ok xs t ((lo + hi) / 2 + 1) hi (by omega) hhi
      · rw [if_neg hlt]
        exact bbLoop_ok xs t lo ((lo + hi) / 2 - 1) hlo (by omega)
  · rw [bbLoop, dif_neg hcond]
    exact ⟨none, rfl⟩
termination_by lo hi => (hi + 1 - lo).toNat
decreasing_by
  · omega
  · omega

theorem bbLoop_sound (xs : List Insumo) (t : String) :
    ∀ (lo hi : Int) (r : Insumo), bbLoop xs t lo hi = .ok (some r) →
      r ∈ xs ∧ pyLower r.insumo = t := by
  intro lo hi r h
  by_cases hcond : lo ≤ hi
  · rw [bbLoop, dif_pos hcond] at h
    rcases hg : pyGet xs ((lo + hi) / 2) with e | item
    · rw [hg] at h
      simp at h
    · rw [hg] at h
      simp only [] at h
      split_ifs at h with heq hlt
      · injection h with h2
        injection h2 with h3
        rw [← h3]
        exact ⟨pyGet_ok_mem hg, heq⟩
      · exact bbLoop_sound xs t ((lo + hi) / 2 + 1) hi r h
      · exact bbLoop_sound xs t lo ((lo + hi) / 2 - 1) r h
  · rw [bbLoop, dif_neg hcond] at h
    simp at h
termination_by lo hi => (hi + 1 - lo).toNat
decreasing_by
  · omega
  · omega

theorem bbLoop_finds (xs : List Insumo) (t : String)
    (hs : xs.Sorted (fun x y => pyLower x.insumo ≤ pyLower y.insumo)) :
    ∀ (lo hi : Int), 0 ≤ lo → hi < (xs.length : Int) →
      (∃ (n : Nat) (hn : n < xs.length), pyLower (xs.get ⟨n, hn⟩).insumo = t ∧
        lo ≤ (n : Int) ∧ (n : Int) ≤ hi) →
      ∃ rr, bbLoop xs t lo hi = .ok (some rr) := by
  intro lo hi hlo hhi hex
  obtain ⟨n, hn, hmatch, hlon, hnhi⟩ := hex
  have hcond : lo ≤ hi := le_trans hlon hnhi
  obtain ⟨hh, hget⟩ := pyGet_in_range xs ((lo + hi) / 2) (by omega) (by omega)
  rw [bbLoop, dif_pos hcond]
  simp only [hget]
  by_cases heq : pyLower (xs.get ⟨((lo + hi) / 2).toNat, hh⟩).insumo = t
  · rw [if_pos heq]
    exact ⟨_, rfl⟩
  · rw [if_neg heq]
    by_cases hlt : pyLower (xs.get ⟨((lo + hi) / 2).toNat, hh⟩).insumo < t
    · rw [if_pos hlt]
      apply bbLoop_finds xs t hs ((lo + hi) / 2 + 1) hi (by omega) hhi
      refine ⟨n, hn, hmatch, ?_, hnhi⟩
      by_contra hcon
      have hnm : n ≤ ((lo + hi) / 2).toNat := by omega
      have hle : pyLower (xs.get ⟨n, hn⟩).insumo ≤
          pyLower (xs.get ⟨((lo + hi) / 2).toNat, hh⟩).insumo := by
        rcases Nat.lt_or_eq_of_le hnm with hnm2 | hnm2
        · exact hs.rel_get_of_lt (Fin.mk_lt_mk.mpr hnm2)
        · exact le_of_eq (congrArg (fun z => pyLower z.insumo)
            (congrArg xs.get (Fin.ext hnm2)))
      rw [hmatch] at hle
      exact absurd (lt_of_le_of_lt hle hlt) (lt_irrefl t)
    · rw [if_neg hlt]
      have hgt : t < pyLower (xs.get ⟨((lo + hi) / 2).toNat, hh⟩).insumo :=
        lt_of_le_of_ne (le_of_not_lt hlt) (fun hc => heq hc.symm)
      apply bbLoop_finds xs t hs lo ((lo + hi) / 2 - 1) hlo (by omega)
      refine ⟨n, hn, hmatch, hlon, ?_⟩
      by_contra hcon
      have hnm : ((lo + hi) / 2).toNat ≤ n := by omega
      have hle : pyLower (xs.get ⟨((lo + hi) / 2).toNat, hh⟩).insumo ≤
          pyLower (xs.get ⟨n, hn⟩).insumo := by
        rcases Nat.lt_or_eq_of_le hnm with hnm2 | hnm2
        · exact hs.rel_get_of_lt (Fin.mk_lt_mk.mpr hnm2)
        · exact le_of_eq (congrArg (fun z => pyLower z.insumo)
            (congrArg xs.get (Fin.ext hnm2)))
      rw [hmatch] at hle
      exact absurd (lt_of_lt_of_le hgt hle) (lt_irrefl t)
termination_by lo hi => (hi + 1 - lo).toNat
decreasing_by
  · omega
  · omega

end BuscaLemmas

section SequencialLemmas

theorem busca_sequencial_none_iff (nome : String) : ∀ (S : List Insumo),
    busca_sequencial S nome = none ↔ ∀ x ∈ S, pyLower x.insumo ≠ pyLower nome
  | [] => by simp [busca_sequencial]
  | item :: rest => by
    rw [busca_sequencial]
    by_cases hm : pyLower item.insumo = pyLower nome
    · rw [if_pos hm]
      constructor
      · intro hcontra
        simp at hcontra
      · intro hall
        exact absurd hm (hall item (List.mem_cons_self item rest))
    · rw [if_neg hm, busca_sequencial_none_iff nome rest]
      constructor
      · intro hr x hx
        rcases List.mem_cons.mp hx with rfl | hx2
        · exact hm
        · exact hr x hx2
      · intro hall x hx
        exact hall x (List.mem_cons_of_mem item hx)

theorem busca_sequencial_some (nome : String) : ∀ (S : List Insumo) (r : Insumo),
    busca_sequencial S nome = some r →
      pyLower r.insumo = pyLower nome ∧
      ∃ (i : Nat) (hi : i < S.length), S.get ⟨i, hi⟩ = r ∧
        ∀ (j : Nat) (hj : j < S.length), j < i →
          pyLower (S.get ⟨j, hj⟩).insumo ≠ pyLower nome
  | [], r => by simp [busca_sequencial]
  | item :: rest, r => by
    rw [busca_sequencial]
    by_cases hm : pyLower item.insumo = pyLower nome
    · rw [if_pos hm]
      intro h
      injection h with h2
      subst h2
      refine ⟨hm, 0, by simp, rfl, ?_⟩
      intro j hj hj0
      exact absurd hj0 (Nat.not_lt_zero j)
    · rw [if_neg hm]
      intro h
      obtain ⟨hmr, i, hi, hget, hfirst⟩ := busca_sequencial_some nome rest r h
      refine ⟨hmr, i + 1, by simpa using Nat.succ_lt_succ hi, hget, ?_⟩
      intro j hj hjlt
      cases j with
      | zero => exact hm
      | succ k =>
        have hk : k < rest.length := by
          simp only [List.length_cons] at hj
          omega
        exact hfirst k hk (Nat.lt_of_succ_lt_succ hjlt)

end SequencialLemmas

section ContainerLemmas

theorem registerAllFila_q : ∀ (xs : List (Nat × Insumo)) (f : FilaConsumo),
    (registerAllFila f xs).q = f.q ++ xs
  | [], f => by simp [registerAllFila]
  | x :: t, f => by
    show (registerAllFila (f.registrar_consumo x.1 x.2) t).q = f.q ++ x :: t
    rw [registerAllFila_q t (f.registrar_consumo x.1 x.2)]
    simp [FilaConsumo.registrar_consumo]

theorem pushAllPilha_stack : ∀ (xs : List (Nat × Insumo)) (p : PilhaConsultas),
    (pushAllPilha p xs).stack = p.stack ++ xs
  | [], p => by simp [pushAllPilha]
  | x :: t, p => by
    show (pushAllPilha (p.consultar x.1 x.2) t).stack = p.stack ++ x :: t
    rw [pushAllPilha_stack t (p.consultar x.1 x.2)]
    simp [PilhaConsultas.consultar]

theorem drainFila_mk : ∀ (l : List (Nat × Insumo)), drainFila ⟨l⟩ = l
  | [] => rfl
  | x :: t => by
    have ih := drainFila_mk t
    show x :: drainFilaFuel t.length ⟨t⟩ = x :: t
    exact congrArg (x :: ·) ih

theorem pilha_ultimo_concat (t : List (Nat × Insumo)) (x : Nat × Insumo) :
    (PilhaConsultas.mk (t ++ [x])).ultimo = (some x, ⟨t⟩) := by
  rw [PilhaConsultas.ultimo]
  simp [List.getLast?_concat, List.dropLast_concat]

theorem drainPilha_mk (l : List (Nat × Insumo)) : drainPilha ⟨l⟩ = l.reverse := by
  induction l using List.reverseRecOn with
  | nil => rfl
  | append_singleton t x ih =>
    have ih2 : drainPilhaFuel t.length ⟨t⟩ = t.reverse := ih
    show drainPilhaFuel (t ++ [x]).length ⟨t ++ [x]⟩ = (t ++ [x]).reverse
    rw [show (t ++ [x]).length = t.length + 1 by simp]
    rw [drainPilhaFuel]
    simp [pilha_ultimo_concat, ih2]

end ContainerLemmas

/-- C1: for every finite list `S` and every key function `key`, both
`merge_sort S key` and `quick_sort S key rs` (under every possible stream of
pivot draws `rs`) return a permutation of `S` — hence of the same length with
exactly the same multiset of elements — whose keys are in non-decreasing
order. -/
theorem sorts_permutation_and_sorted {α K : Type} [LinearOrder K] (S : List α)
    (key : α → K) (rs : List Nat) :
    (merge_sort S key ~ S ∧ (merge_sort S key).Sorted (fun x y => key x ≤ key y)) ∧
    ((quick_sort S key rs).1 ~ S ∧
      ((quick_sort S key rs).1).Sorted (fun x y => key x ≤ key y)) :=
  ⟨⟨merge_sort_perm key S, merge_sort_sorted key S⟩,
   ⟨quick_sort_perm key S rs, quick_sort_sorted key S rs⟩⟩

/-- C2: `merge_sort` is stable — whenever `a` occurs before `b` in `S`
(expressed as `[a, b] <+ S`, a two-element sublist at distinct positions) and
their keys are equal, `a` still occurs before `b` in `merge_sort S key`; and
in the merge step a tie (equal keys at both fronts) takes the element from the
left half first. -/
theorem merge_sort_stable {α K : Type} [LinearOrder K] (S : List α) (key : α → K)
    (a b : α) (hk : key a = key b) (hab : [a, b] <+ S) :
    [a, b] <+ merge_sort S key ∧
    ∀ (x y : α) (xs ys : List α), key x = key y →
      _merge (x :: xs) (y :: ys) key = x :: _merge xs (y :: ys) key := by
  constructor
  · have h1 : [a, b].filter (fun z => decide (key z = key a)) = [a, b] := by
      simp [List.filter_cons, hk.symm]
    have h2 : [a, b].filter (fun z => decide (key z = key a)) <+
        S.filter (fun z => decide (key z = key a)) := hab.filter _
    rw [h1, ← merge_sort_filter key (key a) S] at h2
    exact h2.trans (List.filter_sublist _)
  · intro x y xs ys hxy
    rw [merge_eq_cons_cons, if_pos (le_of_eq hxy)]

/-- C2 witness: a concrete instance with two equal-keyed pairs. -/
theorem merge_sort_stable_witness :
    ([((1 : Nat), (10 : Nat)), (1, 20)] <+
        merge_sort [((2 : Nat), (0 : Nat)), (1, 10), (1, 20)] (fun p => p.1)) ∧
    (∀ (x y : Nat × Nat) (xs ys : List (Nat × Nat)), x.1 = y.1 →
      _merge (x :: xs) (y :: ys) (fun p => p.1) =
        x :: _merge xs (y :: ys) (fun p => p.1)) :=
  merge_sort_stable [((2 : Nat), (0 : Nat)), (1, 10), (1, 20)] (fun p => p.1)
    (1, 10) (1, 20) rfl (by decide)

/-- C3: on input whose keys are already non-decreasing, both sorts return the
input itself, element for element. -/
theorem sorts_idempotent_on_sorted {α K : Type} [LinearOrder K] (S : List α)
    (key : α → K) (rs : List Nat) (hS : S.Sorted (fun x y => key x ≤ key y)) :
    merge_sort S key = S ∧ (quick_sort S key rs).1 = S :=
  ⟨sorted_filter_unique key _ _ (merge_sort_sorted key S) hS
      (fun v => merge_sort_filter key v S),
   sorted_filter_unique key _ _ (quick_sort_sorted key S rs) hS
      (fun v => quick_sort_filter key v S rs)⟩

/-- C3 witness: a concrete sorted list with a duplicate key. -/
theorem sorts_idempotent_on_sorted_witness :
    merge_sort [1, 2, 2, 3] (fun n : Nat => n) = [1, 2, 2, 3] ∧
    (quick_sort [1, 2, 2, 3] (fun n : Nat => n) [3, 0, 1]).1 = [1, 2, 2, 3] :=
  sorts_idempotent_on_sorted [1, 2, 2, 3] (fun n => n) [3, 0, 1] (by decide)

/-- C4: `busca_sequencial` returns `none` on the empty list, returns `none`
exactly when no record's name matches case-insensitively, and any returned
record matches and sits at the first matching position in input order. -/
theorem busca_sequencial_first_match (S : List Insumo) (nome : String) :
    (busca_sequencial [] nome = none) ∧
    (busca_sequencial S nome = none ↔ ∀ x ∈ S, pyLower x.insumo ≠ pyLower nome) ∧
    (∀ r, busca_sequencial S nome = some r →
      pyLower r.insumo = pyLower nome ∧
      ∃ (i : Nat) (hi : i < S.length), S.get ⟨i, hi⟩ = r ∧
        ∀ (j : Nat) (hj : j < S.length), j < i →
          pyLower (S.get ⟨j, hj⟩).insumo ≠ pyLower nome) :=
  ⟨rfl, busca_sequencial_none_iff nome S, fun r => busca_sequencial_some nome S r⟩

/-- C4 witness: searching `"m"` in `[X, M]` returns the `M` record at the
first matching position. -/
theorem busca_sequencial_first_match_witness :
    pyLower (Insumo.mk "M" 3 "E1" none).insumo = pyLower "m" ∧
    ∃ (i : Nat) (hi : i < ([Insumo.mk "X" 5 "E1" none,
        Insumo.mk "M" 3 "E1" none] : List Insumo).length),
      ([Insumo.mk "X" 5 "E1" none, Insumo.mk "M" 3 "E1" none] : List Insumo).get ⟨i, hi⟩ =
          Insumo.mk "M" 3 "E1" none ∧
        ∀ (j : Nat) (hj : j < ([Insumo.mk "X" 5 "E1" none,
            Insumo.mk "M" 3 "E1" none] : List Insumo).length), j < i →
          pyLower (([Insumo.mk "X" 5 "E1" none,
            Insumo.mk "M" 3 "E1" none] : List Insumo).get ⟨j, hj⟩).insumo ≠ pyLower "m" :=
  (busca_sequencial_first_match [Insumo.mk "X" 5 "E1" none, Insumo.mk "M" 3 "E1" none]
    "m").2.2 (Insumo.mk "M" 3 "E1" none) (by decide)

/-- C5: on a list sorted ascending by lower-cased name, `busca_binaria`
returns some matching record whenever one exists, returns `none` when no
record matches, and in particular returns `none` on the empty list, always
without a runtime error. -/
theorem busca_binaria_correct (S : List Insumo) (nome : String)
    (hs : S.Sorted (fun x y => pyLower x.insumo ≤ pyLower y.insumo)) :
    ((∃ x ∈ S, pyLower x.insumo = pyLower nome) →
      ∃ r, busca_binaria S nome = .ok (some r) ∧
        pyLower r.insumo = pyLower nome ∧ r ∈ S) ∧
    ((∀ x ∈ S, pyLower x.insumo ≠ pyLower nome) → busca_binaria S nome = .ok none) ∧
    (S = [] → busca_binaria S nome = .ok none) := by
  have hnone : (∀ x ∈ S, pyLower x.insumo ≠ pyLower nome) →
      busca_binaria S nome = .ok none := by
    intro hall
    obtain ⟨o, ho⟩ := bbLoop_ok S (pyLower nome) 0 ((S.length : Int) - 1)
      (by omega) (by omega)
    cases o with
    | none => exact ho
    | some r =>
      exfalso
      obtain ⟨hmem, hmatch⟩ := bbLoop_sound S (pyLower nome) 0 _ r ho
      exact hall r hmem hmatch
  refine ⟨?_, hnone, ?_⟩
  · rintro ⟨x, hx, hmatch⟩
    obtain ⟨n, hgx⟩ := List.mem_iff_get.mp hx
    have hn1 : pyLower (S.get ⟨n.1, n.2⟩).insumo = pyLower nome := by
      show pyLower (S.get n).insumo = pyLower nome
      rw [hgx]
      exact hmatch
    have hn2 : (0 : Int) ≤ (n.1 : Int) := by omega
    have hn3 : (n.1 : Int) ≤ (S.length : Int) - 1 := by
      have := n.2
      omega
    obtain ⟨rr, hrr⟩ := bbLoop_finds S (pyLower nome) hs 0 ((S.length : Int) - 1)
      (by omega) (by omega) ⟨n.1, n.2, hn1, hn2, hn3⟩
    obtain ⟨hmem, hm2⟩ := bbLoop_sound S (pyLower nome) 0 _ rr hrr
    exact ⟨rr, hrr, hm2, hmem⟩
  · intro hSnil
    subst hSnil
    exact hnone (by simp)

/-- C5 witness: a sorted singleton list where the target matches
case-insensitively. -/
theorem busca_binaria_correct_witness :
    ∃ r, busca_binaria [Insumo.mk "M" 3 "E1" none] "m" = .ok (some r) ∧
      pyLower r.insumo = pyLower "m" ∧ r ∈ [Insumo.mk "M" 3 "E1" none] :=
  (busca_binaria_correct [Insumo.mk "M" 3 "E1" none] "m"
    (List.sorted_singleton _)).1
    ⟨Insumo.mk "M" 3 "E1" none, List.mem_singleton_self _, by decide⟩

/-- C6: on every input list — sorted or not — and every target,
`busca_binaria` terminates with a record or `none` and never with a runtime
error: every index it reads stays inside the list. (Termination itself is
witnessed by the `(hi + 1 - lo).toNat` measure of `bbLoop`, which shrinks
strictly until `lo > hi`.) -/
theorem busca_binaria_never_errors (S : List Insumo) (nome : String) :
    ∃ o : Option Insumo, busca_binaria S nome = .ok o :=
  bbLoop_ok S (pyLower nome) 0 ((S.length : Int) - 1) (by omega) (by omega)

/-- C7: the queue is FIFO — registering `a`, `b`, `c` on a fresh queue and
calling `proximo` three times yields `a`, then `b`, then `c`, and a fourth
call yields `none`; in general draining a freshly filled queue returns the
entries in exactly insertion order. -/
theorem fila_fifo_order (a b c : Insumo) (t1 t2 t3 : Nat) :
    (((FilaConsumo.empty.registrar_consumo t1 a).registrar_consumo t2 b).registrar_consumo
        t3 c).proximo.1 = some (t1, a) ∧
    (((FilaConsumo.empty.registrar_consumo t1 a).registrar_consumo t2 b).registrar_consumo
        t3 c).proximo.2.proximo.1 = some (t2, b) ∧
    (((FilaConsumo.empty.registrar_consumo t1 a).registrar_consumo t2 b).registrar_consumo
        t3 c).proximo.2.proximo.2.proximo.1 = some (t3, c) ∧
    (((FilaConsumo.empty.registrar_consumo t1 a).registrar_consumo t2 b).registrar_consumo
        t3 c).proximo.2.proximo.2.proximo.2.proximo.1 = none ∧
    ∀ xs : List (Nat × Insumo), drainFila (registerAllFila FilaConsumo.empty xs) = xs := by
  refine ⟨rfl, rfl, rfl, rfl, ?_⟩
  intro xs
  have hq := registerAllFila_q xs FilaConsumo.empty
  have h2 : registerAllFila FilaConsumo.empty xs = (⟨xs⟩ : FilaConsumo) := by
    cases hgg : registerAllFila FilaConsumo.empty xs with
    | mk q =>
      rw [hgg] at hq
      simp only [FilaConsumo.empty, List.nil_append] at hq
      rw [hq]
  rw [h2, drainFila_mk]

/-- C8: the stack is LIFO — pushing `a`, `b`, `c` on a fresh stack and
calling `ultimo` three times yields `c`, then `b`, then `a`, and a fourth
call yields `none`; in general draining a freshly filled stack returns the
entries in exact reverse insertion order. -/
theorem pilha_lifo_order (a b c : Insumo) (t1 t2 t3 : Nat) :
    (((PilhaConsultas.empty.consultar t1 a).consultar t2 b).consultar
        t3 c).ultimo.1 = some (t3, c) ∧
    (((PilhaConsultas.empty.consultar t1 a).consultar t2 b).consultar
        t3 c).ultimo.2.ultimo.1 = some (t2, b) ∧
    (((PilhaConsultas.empty.consultar t1 a).consultar t2 b).consultar
        t3 c).ultimo.2.ultimo.2.ultimo.1 = some (t1, a) ∧
    (((PilhaConsultas.empty.consultar t1 a).consultar t2 b).consultar
        t3 c).ultimo.2.ultimo.2.ultimo.2.ultimo.1 = none ∧
    ∀ xs : List (Nat × Insumo),
      drainPilha (pushAllPilha PilhaConsultas.empty xs) = xs.reverse := by
  refine ⟨rfl, rfl, rfl, rfl, ?_⟩
  intro xs
  have hq := pushAllPilha_stack xs PilhaConsultas.empty
  have h2 : pushAllPilha PilhaConsultas.empty xs = (⟨xs⟩ : PilhaConsultas) := by
    cases hgg : pushAllPilha PilhaConsultas.empty xs with
    | mk q =>
      rw [hgg] at hq
      simp only [PilhaConsultas.empty, List.nil_append] at hq
      rw [hq]
  rw [h2, drainPilha_mk]

/-- C9: `proximo` on an empty queue and `ultimo` on an empty stack return an
explicit `none` (never an error — both are total functions), and leave the
container unchanged with length `0`. -/
theorem empty_containers_absent (f : FilaConsumo) (p : PilhaConsultas)
    (hf : f.q = []) (hp : p.stack = []) :
    (f.proximo = (none, f) ∧ f.proximo.2.q.length = 0) ∧
    (p.ultimo = (none, p) ∧ p.ultimo.2.stack.length = 0) := by
  obtain ⟨q⟩ := f
  obtain ⟨s⟩ := p
  simp only at hf hp
  subst hf
  subst hp
  exact ⟨⟨rfl, rfl⟩, ⟨rfl, rfl⟩⟩

/-- C9 witness: the fresh empty queue and stack. -/
theorem empty_containers_absent_witness :
    (FilaConsumo.empty.proximo = (none, FilaConsumo.empty) ∧
      FilaConsumo.empty.proximo.2.q.length = 0) ∧
    (PilhaConsultas.empty.ultimo = (none, PilhaConsultas.empty) ∧
      PilhaConsultas.empty.ultimo.2.stack.length = 0) :=
  empty_containers_absent FilaConsumo.empty PilhaConsultas.empty rfl rfl

/-- C10: the result of `quick_sort` does not depend on the pivot draws: for
every stream `rs` of random numbers it equals `merge_sort` element for
element — in particular `quick_sort` as implemented is de facto stable,
because each of the three order-preserving partition passes keeps equal-keyed
elements in input order. -/
theorem quick_sort_eq_merge_sort {α K : Type} [LinearOrder K] (S : List α)
    (key : α → K) (rs : List Nat) :
    (quick_sort S key rs).1 = merge_sort S key :=
  sorted_filter_unique key _ _ (quick_sort_sorted key S rs) (merge_sort_sorted key S)
    (fun v => (quick_sort_filter key v S rs).trans (merge_sort_filter key v S).symm)
